import Mathlib

/-!
# Verification of the emerge Python import parser

A shallow embedding of `emerge/languages/pyparser.py` (class `PythonParser`).
Python strings are embedded as `List Char`, token streams as `List (List Char)`.
Helpers of the repository that live outside the provided source file
(`abstractparser.py`, `results.py`, `statistics.py`) are modelled from the
specification, as documented on each definition.
-/

namespace EmergePy

/-- A token of the normalized stream: an embedded Python string. -/
abbrev Tok := List Char

/-! ## Python string primitives used by the source -/

/-- Worker for `replaceAll`.  The `skip` counter consumes the remaining
characters of a pattern occurrence that has already been replaced. -/
def replaceAllGo (pat rep : List Char) : Nat → List Char → List Char
  | _, [] => []
  | skip + 1, _ :: s => replaceAllGo pat rep skip s
  | 0, c :: s =>
    if pat ≠ [] ∧ pat.isPrefixOf (c :: s) then
      rep ++ replaceAllGo pat rep (pat.length - 1) s
    else
      c :: replaceAllGo pat rep 0 s

/-- Model of Python `str.replace(pat, rep)` for a non-empty pattern:
left-to-right replacement of non-overlapping occurrences.  (For an empty
pattern the model leaves the string unchanged; the source never uses an
empty pattern.) -/
def replaceAll (pat rep s : List Char) : List Char := replaceAllGo pat rep 0 s

/-- Model of the Python substring test `pat in s`. -/
def containsSub (pat : List Char) : List Char → Bool
  | [] => pat.isPrefixOf []
  | c :: rest => pat.isPrefixOf (c :: rest) || containsSub pat rest

/-! ## Tokenizer / Normalizer -/

/-- Non-newline whitespace separating tokens. -/
def isSepChar (c : Char) : Bool := c = ' ' || c = '\t' || c = '\r'

/-- Emit the (reversed) token buffer if it is non-empty. -/
def flushBuf (buf : List Char) : List Tok :=
  if buf = [] then [] else [buf.reverse]

/-- Worker for `splitTokens`: split on whitespace, keeping each newline
character as a standalone token. -/
def splitTokensAux : List Char → List Char → List Tok
  | buf, [] => flushBuf buf
  | buf, c :: rest =>
    if c = '\n' then flushBuf buf ++ ['\n'] :: splitTokensAux [] rest
    else if isSepChar c then flushBuf buf ++ splitTokensAux [] rest
    else splitTokensAux (c :: buf) rest

/-- Split a string into whitespace-separated tokens, preserving newline
characters as standalone tokens (spec 4.1). -/
def splitTokens (s : List Char) : List Tok := splitTokensAux [] s

/-- The punctuation characters padded by `PythonParser._token_mappings`. -/
def mappedChars : List Char :=
  [':', ';', '\x7b', '\x7d', '(', ')', '[', ']', '?', '!', ',', '<', '>', '"']

/-- Padding replacement table for a list of punctuation characters. -/
def padMappings (cs : List Char) : List (List Char × List Char) :=
  cs.map (fun c => ([c], [' ', c, ' ']))

/-- `PythonParser._token_mappings` from the source, in dict insertion order. -/
def pythonTokenMappings : List (List Char × List Char) :=
  [(":".data, " : ".data), (";".data, " ; ".data),
   ("\x7b".data, " \x7b ".data), ("\x7d".data, " \x7d ".data),
   ("(".data, " ( ".data), (")".data, " ) ".data),
   ("[".data, " [ ".data), ("]".data, " ] ".data),
   ("?".data, " ? ".data), ("!".data, " ! ".data),
   (",".data, " , ".data), ("<".data, " < ".data),
   (">".data, " > ".data), ("\"".data, " \" ".data)]

/-- Apply every mapping replacement to the content, in table order
(`content = content.replace(origin, mapped)` for each entry). -/
def applyTokenMappings (mappings : List (List Char × List Char)) (content : List Char) :
    List Char :=
  mappings.foldl (fun acc m => replaceAll m.1 m.2 acc) content

/-- Modelled from the spec: `preprocess_file_content_and_generate_token_list_by_mapping`
of `abstractparser.py` is not under src/.  Spec 4.1: apply each mapping
replacement to the content, then split the result on whitespace, preserving
newline characters as standalone tokens. -/
def preprocessFileContentAndGenerateTokenListByMapping
    (fileContent : List Char) (mappings : List (List Char × List Char)) : List Tok :=
  splitTokens (applyTokenMappings mappings fileContent)

/-- Simultaneous single-character padding: the proof-side reformulation of
`applyTokenMappings` for a table of pairwise-distinct single characters.
Proven equal to the source-order sequential replacement below. -/
def expandChars (cs : List Char) : List Char → List Char
  | [] => []
  | c :: rest => (if c ∈ cs then [' ', c, ' '] else [c]) ++ expandChars cs rest

/-! ## Parsing keywords (enum `PythonParsingKeyword`) -/

def importKw : List Char := "import".data
def fromKw : List Char := "from".data
def inlineCommentKw : Tok := "#".data
def blockCommentKw : Tok := "\"\"\"".data
def newlineTok : Tok := "\n".data

/-! ## Comment Filter -/

/-- Scanner state of the comment filter. -/
inductive CommentScanState
  | normal
  | inlineComment
  | blockComment
deriving DecidableEq

/-- Modelled from the spec: the token-level comment scanner of
`_filter_source_tokens_without_comments` (`abstractparser.py`, not under
src/).  Spec 4.2: scan tokens in order; on the inline marker discard tokens
through the next newline (the newline itself retained); on a block-comment
marker discard tokens until the matching closing marker (to end of stream
if unmatched). -/
def filterCommentTokens (inlineMarker blockStart blockEnd : Tok) :
    CommentScanState → List Tok → List Tok
  | _, [] => []
  | .normal, t :: rest =>
    if t = inlineMarker then
      filterCommentTokens inlineMarker blockStart blockEnd .inlineComment rest
    else if t = blockStart then
      filterCommentTokens inlineMarker blockStart blockEnd .blockComment rest
    else
      t :: filterCommentTokens inlineMarker blockStart blockEnd .normal rest
  | .inlineComment, t :: rest =>
    if t = newlineTok then
      newlineTok :: filterCommentTokens inlineMarker blockStart blockEnd .normal rest
    else
      filterCommentTokens inlineMarker blockStart blockEnd .inlineComment rest
  | .blockComment, t :: rest =>
    if t = blockEnd then
      filterCommentTokens inlineMarker blockStart blockEnd .normal rest
    else
      filterCommentTokens inlineMarker blockStart blockEnd .blockComment rest

/-- Serialize a token stream back to a string, one blank after each token
(the comment filter returns a string which the source re-tokenizes). -/
def joinTokens : List Tok → List Char
  | [] => []
  | t :: ts => t ++ ' ' :: joinTokens ts

/-- Modelled from the spec: `_filter_source_tokens_without_comments`
(`abstractparser.py`, not under src/) returns the comment-free source as a
string. -/
def filterSourceTokensWithoutComments
    (toks : List Tok) (inlineMarker blockStart blockEnd : Tok) : List Char :=
  joinTokens (filterCommentTokens inlineMarker blockStart blockEnd .normal toks)

/-! ## Line Reconstructor (`_add_imports_to_result`, lines 111-122) -/

/-- Worker for `reconstructImportLines`: accumulate tokens into `line`
separated by blanks; on a newline token trim the trailing blank and retain
the line when it is non-empty, textually contains the keyword, and is not
already retained (`line is not '' and IMPORT in line and line not in
source_import_lines`). -/
def reconstructImportLinesGo : List Tok → List Char → List Tok → List Tok
  | [], _, acc => acc
  | w :: rest, line, acc =>
    if w = newlineTok then
      if line.dropLast ≠ [] ∧ containsSub importKw line.dropLast = true ∧
          line.dropLast ∉ acc then
        reconstructImportLinesGo rest [] (acc ++ [line.dropLast])
      else
        reconstructImportLinesGo rest [] acc
    else
      reconstructImportLinesGo rest (line ++ w ++ [' ']) acc

/-- The retained `source_import_lines` of `_add_imports_to_result`. -/
def reconstructImportLines (toks : List Tok) : List Tok :=
  reconstructImportLinesGo toks [] []

/-- All reconstructed logical lines, before any retention filter: the
reference function used to characterize the retained lines. -/
def reconstructAllLinesGo : List Tok → List Char → List Tok
  | [], _ => []
  | w :: rest, line =>
    if w = newlineTok then line.dropLast :: reconstructAllLinesGo rest []
    else reconstructAllLinesGo rest (line ++ w ++ [' '])

/-- All reconstructed logical lines of a token stream. -/
def reconstructAllLines (toks : List Tok) : List Tok := reconstructAllLinesGo toks []

/-- The retention predicate applied to a reconstructed line: non-empty and
textually containing the `import` keyword as a substring. -/
def importLineFilter (l : Tok) : Bool := decide (l ≠ []) && containsSub importKw l

/-- Append each list element not already present, keeping first-occurrence
order: the deduplication discipline of the retained-line list. -/
def dedupAppend : List Tok → List Tok → List Tok
  | acc, [] => acc
  | acc, l :: ls => if l ∈ acc then dedupAppend acc ls else dedupAppend (acc ++ [l]) ls

/-- Split a line on blank characters (no newline handling): used to state
what containing a keyword as a whole blank-separated token would mean. -/
def splitOnBlanksAux : List Char → List Char → List Tok
  | buf, [] => flushBuf buf
  | buf, c :: rest =>
    if c = ' ' then flushBuf buf ++ splitOnBlanksAux [] rest
    else splitOnBlanksAux (c :: buf) rest

/-- Whether `kw` occurs in `l` as a whole blank-separated token. -/
def containsWholeToken (kw l : List Char) : Bool :=
  (splitOnBlanksAux [] l).contains kw

/-! ## Import Grammar Matcher (pyparsing expression, lines 124-139)

The source builds the pyparsing expression
`(Keyword(IMPORT) | Keyword(FROM)) + valid_name + Optional(FollowedBy(Keyword(IMPORT)))`
with `valid_name = Word(alphanums + '.' + '_' + '-' + '/')` and runs
`parseString` on the reconstructed line.  The following functions embed the
semantics of that pyparsing expression. -/

/-- pyparsing default `Keyword` identifier characters (`alphanums + "_$"`). -/
def isIdentChar (c : Char) : Bool := c.isAlphanum || c = '_' || c = '$'

/-- The `valid_name` character class: alphanumerics plus `.`, `_`, `-`, `/`. -/
def isValidNameChar (c : Char) : Bool :=
  c.isAlphanum || c = '.' || c = '_' || c = '-' || c = '/'

/-- pyparsing default skippable whitespace. -/
def isParseWs (c : Char) : Bool := c = ' ' || c = '\t' || c = '\n'

/-- pyparsing `Keyword(kw)` at the current location: the keyword is a prefix
and the following character (if any) is not an identifier character. -/
def keywordMatches (kw s : List Char) : Bool :=
  kw.isPrefixOf s &&
    (match s.drop kw.length with
     | [] => true
     | c :: _ => !isIdentChar c)

/-- pyparsing `Word(valid_name_chars)` after a matched keyword: skip
whitespace, then greedily take valid-name characters; fails when no such
character follows. -/
def parseNameAfter (rest : List Char) : Option (List Char) :=
  if (rest.dropWhile isParseWs).takeWhile isValidNameChar = [] then none
  else some ((rest.dropWhile isParseWs).takeWhile isValidNameChar)

/-- Embedded semantics of `expression_to_match.parseString(line)`: skip
leading whitespace, match `Keyword(IMPORT)` or else `Keyword(FROM)`, skip
whitespace, then greedily match one `valid_name` word; the trailing
`Optional(FollowedBy(...))` always succeeds and captures nothing.  Returns
the captured name (`IMPORT_ENTITY_NAME`), or `none` when pyparsing would
raise a `ParseException`. -/
def parseImportLine (line : List Char) : Option (List Char) :=
  if keywordMatches importKw (line.dropWhile isParseWs) then
    parseNameAfter ((line.dropWhile isParseWs).drop importKw.length)
  else if keywordMatches fromKw (line.dropWhile isParseWs) then
    parseNameAfter ((line.dropWhile isParseWs).drop fromKw.length)
  else none

/-! ## Data model -/

/-- Modelled from the spec: the two monotone counters of one analysis run
(`statistics.py` is not under src/). -/
structure Statistics where
  parsingHits : Nat
  parsingMisses : Nat
deriving DecidableEq

/-- Modelled from the spec: language tags of `abstractparser.LanguageType`
(not under src/); only the tags relevant here are modelled. -/
inductive LanguageType
  | C
  | PY
  | JAVA
deriving DecidableEq

/-- Modelled from the spec: the `AnalysisContext` handed in by the
orchestrator — source root directory, ignore-list configuration and the
statistics counters. -/
structure Analysis where
  sourceDirectory : List Char
  ignoredDependencies : List Tok
  statistics : Statistics
deriving DecidableEq

/-- Modelled from the spec: the per-file record of `results.py` (not under
src/), with the fields passed by `FileResult.create_file_result` in the
source; its unique identity is the path relative to the analysis root. -/
structure FileResult where
  uniqueName : Tok
  scannedFileName : List Char
  relativeFilePathToAnalysis : List Char
  absoluteName : List Char
  displayName : List Char
  moduleName : Option (List Char)
  scannedBy : List Char
  scannedLanguage : LanguageType
  scannedTokens : List Tok
  scannedImportDependencies : List Tok
deriving DecidableEq

/-- Modelled from the spec: an entity-level (class/function) result record
(`abstractresult.AbstractEntityResult`, not under src/). -/
structure EntityResult where
  entityName : List Char
deriving DecidableEq

/-- Modelled from the spec: `Parser.PYTHON_PARSER.name`, the identity this
parser stamps into results. -/
def pythonParserName : List Char := "PYTHON_PARSER".data

/-- Modelled from the spec: `FileResult.create_file_result` (not under
src/) constructs the record with an empty dependency list, keyed by the
relative path. -/
def FileResult.createFileResult
    (scannedFileName relativeFilePathToAnalysis absoluteName displayName : List Char)
    (moduleName : Option (List Char)) (scannedBy : List Char)
    (scannedLanguage : LanguageType) (scannedTokens : List Tok) : FileResult :=
  { uniqueName := relativeFilePathToAnalysis
    scannedFileName := scannedFileName
    relativeFilePathToAnalysis := relativeFilePathToAnalysis
    absoluteName := absoluteName
    displayName := displayName
    moduleName := moduleName
    scannedBy := scannedBy
    scannedLanguage := scannedLanguage
    scannedTokens := scannedTokens
    scannedImportDependencies := [] }

/-- `_add_package_name_to_result`: sets `result.module_name = None`. -/
def addPackageNameToResult (result : FileResult) : FileResult :=
  { result with moduleName := none }

/-- Modelled from the spec: `_is_dependency_in_ignore_list` (mixin, not
under src/) — pattern-based substring/identity match of the dependency
against the configured ignore list. -/
def isDependencyInIgnoreList (dependency : Tok) (analysis : Analysis) : Bool :=
  analysis.ignoredDependencies.any (fun pat => containsSub pat dependency)

/-- The per-line body of the `for line in source_import_lines` loop: a
failed grammar match increments the miss counter and continues; a match
increments the hit counter and appends the dependency unless it is in the
ignore list. -/
def processImportLine (analysis : Analysis) (acc : List Tok × Statistics) (line : Tok) :
    List Tok × Statistics :=
  match parseImportLine line with
  | none => (acc.1, ⟨acc.2.parsingHits, acc.2.parsingMisses + 1⟩)
  | some dependency =>
    if isDependencyInIgnoreList dependency analysis then
      (acc.1, ⟨acc.2.parsingHits + 1, acc.2.parsingMisses⟩)
    else
      (acc.1 ++ [dependency], ⟨acc.2.parsingHits + 1, acc.2.parsingMisses⟩)

/-- `_add_imports_to_result`: filter comments from the scanned tokens,
re-tokenize the resulting string, reconstruct the retained lines, and run
the grammar on each; returns the updated result and statistics. -/
def addImportsToResult (result : FileResult) (analysis : Analysis) :
    FileResult × Statistics :=
  let listOfWordsWithNewlineStrings := result.scannedTokens
  let sourceStringNoComments := filterSourceTokensWithoutComments
    listOfWordsWithNewlineStrings inlineCommentKw blockCommentKw blockCommentKw
  let filteredListNoComments := preprocessFileContentAndGenerateTokenListByMapping
    sourceStringNoComments pythonTokenMappings
  let sourceImportLines := reconstructImportLines filteredListNoComments
  let out := sourceImportLines.foldl (processImportLine analysis)
    (result.scannedImportDependencies, analysis.statistics)
  ({ result with scannedImportDependencies := out.1 }, out.2)

/-- Model of Python `PosixPath(p).parent` rendered as a string, for paths
in normal form (no trailing slash, no repeated slashes): drop the final
path component; `.` when there is no slash, `/` stays `/`. -/
def posixParent (p : List Char) : List Char :=
  match p.reverse.dropWhile (fun c => c ≠ '/') with
  | [] => ['.']
  | ['/'] => ['/']
  | _ :: restRev => restRev.reverse

/-- Model of Python dict assignment `m[k] = v`: update the first binding of
`k` in place, else append a new binding. -/
def dictInsert : List (Tok × FileResult) → Tok → FileResult → List (Tok × FileResult)
  | [], k, v => [(k, v)]
  | p :: rest, k, v => if p.1 = k then (k, v) :: rest else p :: dictInsert rest k v

/-- Model of Python dict lookup `m[k]`. -/
def dictLookup : List (Tok × FileResult) → Tok → Option FileResult
  | [], _ => none
  | p :: rest, k => if p.1 = k then some p.2 else dictLookup rest k

/-- `generate_file_result_from_analysis`: tokenize the content, compute the
identity relative to the parent of the analysis source directory, build the
file result (scanned_language=LanguageType.C, module_name=\"\"), null the
module name, extract imports, and register the result under its unique
name.  The shared results mapping and the statistics are threaded
explicitly. -/
def generateFileResultFromAnalysis (analysis : Analysis)
    (results : List (Tok × FileResult))
    (fileName fullFilePath fileContent : List Char) :
    List (Tok × FileResult) × Statistics :=
  let scannedTokens := preprocessFileContentAndGenerateTokenListByMapping
    fileContent pythonTokenMappings
  let parentAnalysisSourcePath := posixParent analysis.sourceDirectory ++ ['/']
  let relativeFilePathToAnalysis := replaceAll parentAnalysisSourcePath [] fullFilePath
  let fileResult := FileResult.createFileResult fileName relativeFilePathToAnalysis
    fullFilePath fileName (some []) pythonParserName LanguageType.C scannedTokens
  let fileResult1 := addPackageNameToResult fileResult
  let out := addImportsToResult fileResult1 analysis
  (dictInsert results out.1.uniqueName out.1, out.2)

/-- Modelled from the spec: the capability-not-supported signal
(`NotImplementedError` raised with a message). -/
structure NotImplementedSignal where
  message : List Char
deriving DecidableEq

/-- `generate_entity_results_from_analysis`: unconditionally raises
`NotImplementedError('currently not implemented in PYTHON_PARSER')`. -/
def generateEntityResultsFromAnalysis (analysis : Analysis) :
    Except NotImplementedSignal (List EntityResult) :=
  Except.error ⟨("currently not implemented in ".data) ++ pythonParserName⟩

/-- `create_unique_entity_name`: unconditionally raises
`NotImplementedError('currently not implemented in PYTHON_PARSER')`. -/
def createUniqueEntityName (entity : EntityResult) :
    Except NotImplementedSignal (List Char) :=
  Except.error ⟨("currently not implemented in ".data) ++ pythonParserName⟩

/-- Scenario driver: run `_add_imports_to_result` on a freshly generated
file result for the given raw content and ignore list, returning the
extracted dependency list and the final statistics (counters start at 0). -/
def runImportExtraction (fileContent : List Char) (ignoreList : List Tok) :
    List Tok × Statistics :=
  let analysis : Analysis := ⟨("/project/src".data), ignoreList, ⟨0, 0⟩⟩
  let scanned := preprocessFileContentAndGenerateTokenListByMapping
    fileContent pythonTokenMappings
  let result := FileResult.createFileResult ("test.py".data) ("src/test.py".data)
    ("/project/src/test.py".data) ("test.py".data) (some []) pythonParserName
    LanguageType.C scanned
  let out := addImportsToResult result analysis
  (out.1.scannedImportDependencies, out.2)

/-! ## Helper lemmas -/

theorem prefixOf_exists {l₁ l₂ : List Char} (h : l₁.isPrefixOf l₂ = true) :
    ∃ t, l₂ = l₁ ++ t := by
  obtain ⟨t, ht⟩ := List.isPrefixOf_iff_prefix.mp h
  exact ⟨t, ht.symm⟩

theorem head?_dropWhile_false {p : Char → Bool} {l : List Char} {c : Char}
    (h : (l.dropWhile p).head? = some c) : p c = false := by
  induction l with
  | nil => simp [List.dropWhile] at h
  | cons a l ih =>
    rw [List.dropWhile_cons] at h
    by_cases hp : p a
    · rw [if_pos hp] at h
      exact ih h
    · rw [if_neg hp] at h
      simp only [List.head?_cons, Option.some.injEq] at h
      subst h
      exact Bool.eq_false_iff.mpr hp

theorem parse_decomp_kw {s dep kw : List Char} (hk : keywordMatches kw s = true)
    (h : parseNameAfter (s.drop kw.length) = some dep) :
    dep ≠ [] ∧ (∀ c ∈ dep, isValidNameChar c = true) ∧
    ∃ mid rest, s = kw ++ (mid ++ (dep ++ rest)) ∧ (∀ c ∈ mid, isParseWs c = true) ∧
      (∀ c, rest.head? = some c → isValidNameChar c = false) := by
  have hpre : kw.isPrefixOf s = true := by
    rw [keywordMatches, Bool.and_eq_true] at hk
    exact hk.1
  obtain ⟨t, ht⟩ := prefixOf_exists hpre
  have hdrop : s.drop kw.length = t := by rw [ht]; exact List.drop_left kw t
  rw [hdrop] at h
  unfold parseNameAfter at h
  by_cases hemp : (t.dropWhile isParseWs).takeWhile isValidNameChar = []
  · rw [if_pos hemp] at h
    exact absurd h (by simp)
  · rw [if_neg hemp] at h
    have hdep : dep = (t.dropWhile isParseWs).takeWhile isValidNameChar :=
      (Option.some.injEq _ _ ▸ h).symm
    refine ⟨hdep ▸ hemp, ?_, t.takeWhile isParseWs,
      (t.dropWhile isParseWs).dropWhile isValidNameChar, ?_, ?_, ?_⟩
    · intro c hc
      rw [hdep] at hc
      exact List.mem_takeWhile_imp hc
    · rw [ht, hdep]
      congr 1
      conv_lhs => rw [← List.takeWhile_append_dropWhile isParseWs t]
      congr 1
      exact (List.takeWhile_append_dropWhile isValidNameChar (t.dropWhile isParseWs)).symm
    · intro c hc
      exact List.mem_takeWhile_imp hc
    · intro c hc
      exact head?_dropWhile_false hc

theorem parse_decomp {line dep : List Char} (h : parseImportLine line = some dep) :
    dep ≠ [] ∧ (∀ c ∈ dep, isValidNameChar c = true) ∧
    ∃ kw mid rest, (kw = importKw ∨ kw = fromKw) ∧
      line = line.takeWhile isParseWs ++ (kw ++ (mid ++ (dep ++ rest))) ∧
      (∀ c ∈ mid, isParseWs c = true) ∧
      (∀ c, rest.head? = some c → isValidNameChar c = false) := by
  have hline : line = line.takeWhile isParseWs ++ line.dropWhile isParseWs :=
    (List.takeWhile_append_dropWhile isParseWs line).symm
  rw [parseImportLine] at h
  by_cases h1 : keywordMatches importKw (line.dropWhile isParseWs)
  · rw [if_pos h1] at h
    obtain ⟨hne, hval, mid, rest, hdec, hmid, hrest⟩ := parse_decomp_kw h1 h
    exact ⟨hne, hval, importKw, mid, rest, Or.inl rfl, by rw [← hdec]; exact hline,
      hmid, hrest⟩
  · rw [if_neg h1] at h
    by_cases h2 : keywordMatches fromKw (line.dropWhile isParseWs)
    · rw [if_pos h2] at h
      obtain ⟨hne, hval, mid, rest, hdec, hmid, hrest⟩ := parse_decomp_kw h2 h
      exact ⟨hne, hval, fromKw, mid, rest, Or.inr rfl, by rw [← hdec]; exact hline,
        hmid, hrest⟩
    · rw [if_neg h2] at h
      exact absurd h (by simp)

theorem addImportsToResult_fst_uniqueName (r : FileResult) (a : Analysis) :
    (addImportsToResult r a).1.uniqueName = r.uniqueName := by
  simp [addImportsToResult]

theorem addImportsToResult_fst_scannedTokens (r : FileResult) (a : Analysis) :
    (addImportsToResult r a).1.scannedTokens = r.scannedTokens := by
  simp [addImportsToResult]

theorem addImportsToResult_fst_scannedLanguage (r : FileResult) (a : Analysis) :
    (addImportsToResult r a).1.scannedLanguage = r.scannedLanguage := by
  simp [addImportsToResult]

theorem addImportsToResult_fst_moduleName (r : FileResult) (a : Analysis) :
    (addImportsToResult r a).1.moduleName = r.moduleName := by
  simp [addImportsToResult]

theorem addImportsToResult_fst_relativePath (r : FileResult) (a : Analysis) :
    (addImportsToResult r a).1.relativeFilePathToAnalysis =
      r.relativeFilePathToAnalysis := by
  simp [addImportsToResult]

theorem dictLookup_dictInsert (m : List (Tok × FileResult)) (k : Tok) (v : FileResult) :
    dictLookup (dictInsert m k v) k = some v := by
  induction m with
  | nil => simp [dictInsert, dictLookup]
  | cons p rest ih =>
    by_cases hp : p.1 = k
    · simp [dictInsert, hp, dictLookup]
    · simp [dictInsert, hp, dictLookup, ih]

/-! ## Claim theorems -/

/-- C1: whenever the import grammar succeeds on a retained line, the
extracted dependency is the first maximal non-empty run of valid-name
characters (alphanumerics plus `.`, `_`, `-`, `/`) following the initial
`import` or `from` keyword (after skipped whitespace); it contains no
blank, so it never includes a trailing `import` keyword; and on the input
`"from foo.bar import baz\n"` the extracted dependency list is
`["foo.bar"]`, not `["baz"]`. -/
theorem c1_extracted_dependency (line dep : List Char)
    (h : parseImportLine line = some dep) :
    (dep ≠ [] ∧ (∀ c ∈ dep, isValidNameChar c = true) ∧ ' ' ∉ dep ∧
      ∃ kw mid rest, (kw = importKw ∨ kw = fromKw) ∧
        line = line.takeWhile isParseWs ++ (kw ++ (mid ++ (dep ++ rest))) ∧
        (∀ c ∈ mid, isParseWs c = true) ∧
        (∀ c, rest.head? = some c → isValidNameChar c = false)) ∧
    (runImportExtraction ("from foo.bar import baz\n".data) []).1 =
      [("foo.bar".data)] := by
  obtain ⟨hne, hval, kw, mid, rest, hkw, hdec, hmid, hrest⟩ := parse_decomp h
  refine ⟨⟨hne, hval, ?_, kw, mid, rest, hkw, hdec, hmid, hrest⟩, by decide⟩
  intro hmem
  exact absurd (hval ' ' hmem) (by decide)

/-- Witness for C1 at the scenario line `"from foo.bar import baz"`. -/
theorem c1_extracted_dependency_witness :
    parseImportLine ("from foo.bar import baz".data) = some ("foo.bar".data) ∧
    ((("foo.bar".data) ≠ [] ∧ (∀ c ∈ ("foo.bar".data), isValidNameChar c = true) ∧
        ' ' ∉ ("foo.bar".data) ∧
      ∃ kw mid rest, (kw = importKw ∨ kw = fromKw) ∧
        ("from foo.bar import baz".data) =
          ("from foo.bar import baz".data).takeWhile isParseWs ++
            (kw ++ (mid ++ (("foo.bar".data) ++ rest))) ∧
        (∀ c ∈ mid, isParseWs c = true) ∧
        (∀ c, rest.head? = some c → isValidNameChar c = false)) ∧
      (runImportExtraction ("from foo.bar import baz\n".data) []).1 =
        [("foo.bar".data)]) :=
  ⟨by decide, c1_extracted_dependency _ _ (by decide)⟩

/-- C3: a parsed dependency that matches the ignore list is not appended,
the miss counter is unchanged, and the hit counter is incremented exactly
once; on input `"import testlib\n"` with the ignore list `["testlib"]` the
extraction yields no dependency, one hit and no miss. -/
theorem c3_ignored_dependency (analysis : Analysis) (acc : List Tok × Statistics)
    (line dep : Tok) (h1 : parseImportLine line = some dep)
    (h2 : isDependencyInIgnoreList dep analysis = true) :
    processImportLine analysis acc line =
      (acc.1, ⟨acc.2.parsingHits + 1, acc.2.parsingMisses⟩) ∧
    runImportExtraction ("import testlib\n".data) [("testlib".data)] =
      ([], ⟨1, 0⟩) := by
  refine ⟨?_, by decide⟩
  unfold processImportLine
  rw [h1]
  simp [h2]

/-- Witness for C3 at the scenario line `"import testlib"`. -/
theorem c3_ignored_dependency_witness :
    parseImportLine ("import testlib".data) = some ("testlib".data) ∧
    isDependencyInIgnoreList ("testlib".data)
      ⟨("/project/src".data), [("testlib".data)], ⟨0, 0⟩⟩ = true ∧
    (processImportLine ⟨("/project/src".data), [("testlib".data)], ⟨0, 0⟩⟩
        ([], ⟨0, 0⟩) ("import testlib".data) = ([], ⟨1, 0⟩) ∧
      runImportExtraction ("import testlib\n".data) [("testlib".data)] =
        ([], ⟨1, 0⟩)) :=
  ⟨by decide, by decide,
    c3_ignored_dependency ⟨("/project/src".data), [("testlib".data)], ⟨0, 0⟩⟩
      ([], ⟨0, 0⟩) ("import testlib".data) ("testlib".data)
      (by decide) (by decide)⟩

/-- C4: a retained line on which the grammar fails increments the miss
counter by exactly one, appends no dependency, and processing continues
with the remaining lines (the failure is local to the line, modelled
totally, so no exception escapes); on input `"importxyz broken\n"` the
extraction yields no dependency, no hit and one miss. -/
theorem c4_parse_miss_recovery (analysis : Analysis) (acc : List Tok × Statistics)
    (line : Tok) (rest : List Tok) (h : parseImportLine line = none) :
    processImportLine analysis acc line =
      (acc.1, ⟨acc.2.parsingHits, acc.2.parsingMisses + 1⟩) ∧
    (line :: rest).foldl (processImportLine analysis) acc =
      rest.foldl (processImportLine analysis)
        (acc.1, ⟨acc.2.parsingHits, acc.2.parsingMisses + 1⟩) ∧
    runImportExtraction ("importxyz broken\n".data) [] = ([], ⟨0, 1⟩) := by
  have hstep : processImportLine analysis acc line =
      (acc.1, ⟨acc.2.parsingHits, acc.2.parsingMisses + 1⟩) := by
    unfold processImportLine
    rw [h]
  exact ⟨hstep, by rw [List.foldl_cons, hstep], by decide⟩

/-- Witness for C4 at the scenario line `"importxyz broken"`. -/
theorem c4_parse_miss_recovery_witness :
    parseImportLine ("importxyz broken".data) = none ∧
    (processImportLine ⟨("/project/src".data), [], ⟨0, 0⟩⟩ ([], ⟨0, 0⟩)
        ("importxyz broken".data) = ([], ⟨0, 1⟩) ∧
      (("importxyz broken".data) :: []).foldl
          (processImportLine ⟨("/project/src".data), [], ⟨0, 0⟩⟩) ([], ⟨0, 0⟩) =
        List.foldl (processImportLine ⟨("/project/src".data), [], ⟨0, 0⟩⟩)
          ([], ⟨0, 1⟩) [] ∧
      runImportExtraction ("importxyz broken\n".data) [] = ([], ⟨0, 1⟩)) :=
  ⟨by decide, c4_parse_miss_recovery _ _ _ _ (by decide)⟩

/-- C6: entity-level extraction and unique-entity naming both fail
immediately, for every input, with the distinct capability-not-supported
signal (the `NotImplementedError` message of the source); neither ever
returns a successful (in particular an empty) result, unlike a recoverable
line-parse failure which is handled inside import extraction. -/
theorem c6_entity_extraction_unsupported (analysis : Analysis) (entity : EntityResult) :
    generateEntityResultsFromAnalysis analysis =
      Except.error ⟨("currently not implemented in PYTHON_PARSER".data)⟩ ∧
    createUniqueEntityName entity =
      Except.error ⟨("currently not implemented in PYTHON_PARSER".data)⟩ ∧
    (∀ rs, generateEntityResultsFromAnalysis analysis ≠ Except.ok rs) ∧
    (∀ nm, createUniqueEntityName entity ≠ Except.ok nm) := by
  have hmsg : ("currently not implemented in ".data ++ pythonParserName) =
      ("currently not implemented in PYTHON_PARSER".data) := by decide
  refine ⟨?_, ?_, ?_, ?_⟩
  · rw [generateEntityResultsFromAnalysis, hmsg]
  · rw [createUniqueEntityName, hmsg]
  · intro rs
    simp [generateEntityResultsFromAnalysis]
  · intro nm
    simp [createUniqueEntityName]

/-- The file result value that `generate_file_result_from_analysis`
registers: the constructed result after module-name nulling and import
extraction. -/
def registeredFileResult (analysis : Analysis)
    (fileName fullFilePath fileContent : List Char) : FileResult :=
  (addImportsToResult
    (addPackageNameToResult
      (FileResult.createFileResult fileName
        (replaceAll (posixParent analysis.sourceDirectory ++ ['/']) [] fullFilePath)
        fullFilePath fileName (some []) pythonParserName LanguageType.C
        (preprocessFileContentAndGenerateTokenListByMapping fileContent
          pythonTokenMappings))) analysis).1

theorem registeredFileResult_uniqueName (analysis : Analysis)
    (fileName fullFilePath fileContent : List Char) :
    (registeredFileResult analysis fileName fullFilePath fileContent).uniqueName =
      replaceAll (posixParent analysis.sourceDirectory ++ ['/']) [] fullFilePath := by
  rw [registeredFileResult, addImportsToResult_fst_uniqueName]
  simp [addPackageNameToResult, FileResult.createFileResult]

theorem generate_registers_result (analysis : Analysis)
    (results : List (Tok × FileResult))
    (fileName fullFilePath fileContent : List Char) :
    dictLookup
      (generateFileResultFromAnalysis analysis results fileName fullFilePath
        fileContent).1
      (replaceAll (posixParent analysis.sourceDirectory ++ ['/']) [] fullFilePath) =
    some (registeredFileResult analysis fileName fullFilePath fileContent) := by
  simp only [generateFileResultFromAnalysis]
  rw [show replaceAll (posixParent analysis.sourceDirectory ++ ['/']) [] fullFilePath =
    (registeredFileResult analysis fileName fullFilePath fileContent).uniqueName from
    (registeredFileResult_uniqueName analysis fileName fullFilePath fileContent).symm]
  exact dictLookup_dictInsert _ _ _

/-- C9: the unique, path-relative identity of the produced file result is
the full file path with the parent of the analysis source directory (plus
trailing slash) removed, and the result is registered in the shared
results mapping under exactly that unique name. -/
theorem c9_unique_name_registration (analysis : Analysis)
    (results : List (Tok × FileResult))
    (fileName fullFilePath fileContent : List Char) :
    ∃ fr,
      dictLookup
        (generateFileResultFromAnalysis analysis results fileName fullFilePath
          fileContent).1
        (replaceAll (posixParent analysis.sourceDirectory ++ ['/']) [] fullFilePath) =
          some fr ∧
      fr.uniqueName =
        replaceAll (posixParent analysis.sourceDirectory ++ ['/']) [] fullFilePath ∧
      fr.relativeFilePathToAnalysis = fr.uniqueName := by
  refine ⟨registeredFileResult analysis fileName fullFilePath fileContent,
    generate_registers_result analysis results fileName fullFilePath fileContent,
    registeredFileResult_uniqueName analysis fileName fullFilePath fileContent, ?_⟩
  rw [registeredFileResult, addImportsToResult_fst_uniqueName,
    addImportsToResult_fst_relativePath]
  simp [addPackageNameToResult, FileResult.createFileResult]

/-- C8: the token stream stored in the registered file result is the full
normalized token stream of the original file content, and import
extraction never modifies the stored stream (it re-tokenizes a separately
produced comment-filtered string). -/
theorem c8_stored_token_stream (result : FileResult) (analysisA : Analysis)
    (analysis : Analysis) (results : List (Tok × FileResult))
    (fileName fullFilePath fileContent : List Char) :
    (addImportsToResult result analysisA).1.scannedTokens = result.scannedTokens ∧
    ∃ fr,
      dictLookup
        (generateFileResultFromAnalysis analysis results fileName fullFilePath
          fileContent).1
        (replaceAll (posixParent analysis.sourceDirectory ++ ['/']) [] fullFilePath) =
          some fr ∧
      fr.scannedTokens =
        preprocessFileContentAndGenerateTokenListByMapping fileContent
          pythonTokenMappings := by
  refine ⟨addImportsToResult_fst_scannedTokens result analysisA,
    registeredFileResult analysis fileName fullFilePath fileContent,
    generate_registers_result analysis results fileName fullFilePath fileContent, ?_⟩
  rw [registeredFileResult, addImportsToResult_fst_scannedTokens]
  simp [addPackageNameToResult, FileResult.createFileResult]

/-- C10: every registered file result carries `scanned_language =
LanguageType.C` (not a Python tag) and `module_name = None`. -/
theorem c10_language_tag_and_module_name (analysis : Analysis)
    (results : List (Tok × FileResult))
    (fileName fullFilePath fileContent : List Char) :
    ∃ fr,
      dictLookup
        (generateFileResultFromAnalysis analysis results fileName fullFilePath
          fileContent).1
        (replaceAll (posixParent analysis.sourceDirectory ++ ['/']) [] fullFilePath) =
          some fr ∧
      fr.scannedLanguage = LanguageType.C ∧ fr.moduleName = none := by
  refine ⟨registeredFileResult analysis fileName fullFilePath fileContent,
    generate_registers_result analysis results fileName fullFilePath fileContent,
    ?_, ?_⟩
  · rw [registeredFileResult, addImportsToResult_fst_scannedLanguage]
    simp [addPackageNameToResult, FileResult.createFileResult]
  · rw [registeredFileResult, addImportsToResult_fst_moduleName]
    simp [addPackageNameToResult]

theorem reconstruct_bridge (toks : List Tok) (line : List Char) (acc : List Tok) :
    reconstructImportLinesGo toks line acc =
      dedupAppend acc ((reconstructAllLinesGo toks line).filter importLineFilter) := by
  induction toks generalizing line acc with
  | nil => rw [reconstructImportLinesGo, reconstructAllLinesGo, List.filter_nil, dedupAppend]
  | cons w rest ih =>
    rw [reconstructImportLinesGo, reconstructAllLinesGo]
    by_cases hw : w = newlineTok
    · rw [if_pos hw, if_pos hw]
      by_cases hP : line.dropLast ≠ [] ∧ containsSub importKw line.dropLast = true
      · have hfil : importLineFilter line.dropLast = true := by
          rw [importLineFilter, Bool.and_eq_true, decide_eq_true_eq]
          exact hP
        rw [List.filter_cons_of_pos hfil, dedupAppend]
        by_cases hmem : line.dropLast ∈ acc
        · rw [if_neg (by intro hcon; exact hcon.2.2 hmem), if_pos hmem]
          exact ih [] acc
        · rw [if_pos ⟨hP.1, hP.2, hmem⟩, if_neg hmem]
          exact ih [] (acc ++ [line.dropLast])
      · have hfil : importLineFilter line.dropLast = false := by
          rw [importLineFilter]
          rcases not_and_or.mp hP with h | h
          · simp [not_not.mp (fun hc => h hc)]
          · simp [Bool.eq_false_iff.mpr h]
        rw [List.filter_cons_of_neg (by rw [hfil]; exact Bool.false_ne_true),
          if_neg (by intro hcon; exact hP ⟨hcon.1, hcon.2.1⟩)]
        exact ih [] acc
    · rw [if_neg hw, if_neg hw]
      exact ih (line ++ w ++ [' ']) acc

theorem dedupAppend_nodup (ls : List Tok) (acc : List Tok) (h : acc.Nodup) :
    (dedupAppend acc ls).Nodup := by
  induction ls generalizing acc with
  | nil => rw [dedupAppend]; exact h
  | cons l ls ih =>
    rw [dedupAppend]
    by_cases hm : l ∈ acc
    · rw [if_pos hm]
      exact ih acc h
    · rw [if_neg hm]
      refine ih _ ?_
      rw [List.nodup_append]
      refine ⟨h, List.nodup_singleton l, ?_⟩
      intro a ha hb
      rw [List.mem_singleton] at hb
      subst hb
      exact hm ha

/-- C2 counterexample: on input `"importxyz broken\n"` the line
`"importxyz broken"` is retained although `import` does not occur in it as
a whole blank-separated token — retention uses a substring test, not a
whole-token test. -/
theorem c2_counterexample :
    reconstructImportLines (preprocessFileContentAndGenerateTokenListByMapping
      ("importxyz broken\n".data) pythonTokenMappings) =
      [("importxyz broken".data)] ∧
    containsWholeToken importKw ("importxyz broken".data) = false := by decide

/-- C2 (amended): the Line Reconstructor retains a reconstructed line iff
it is non-empty, contains the `import` keyword as a substring (not
necessarily as a whole token), and is not textually equal to an already
retained line; the retained list keeps first-occurrence order and holds no
duplicate raw text. -/
theorem c2_retained_lines (toks : List Tok) :
    reconstructImportLines toks =
      dedupAppend [] ((reconstructAllLines toks).filter importLineFilter) ∧
    (reconstructImportLines toks).Nodup := by
  have h : reconstructImportLines toks =
      dedupAppend [] ((reconstructAllLines toks).filter importLineFilter) := by
    rw [reconstructImportLines, reconstructAllLines]
    exact reconstruct_bridge toks [] []
  exact ⟨h, h ▸ dedupAppend_nodup _ _ List.nodup_nil⟩

/-- C5: evaluation at the failing input.  The inline scenario behaves as
claimed (`"# import fake\nimport real\n"` yields `["real"]`), but the
token mapping `'"' -> ' " '` splits every `\"\"\"` into three `\"` tokens,
so the block-comment marker passed to the comment filter never matches a
token: an import inside a `\"\"\"` region reaches the grammar and
contributes the dependency `"fake"`. -/
theorem c5_block_comment_leak :
    (runImportExtraction ("\"\"\"\nimport fake\n\"\"\"\nimport real\n".data) []).1 =
      [("fake".data), ("real".data)] ∧
    (runImportExtraction ("# import fake\nimport real\n".data) []).1 =
      [("real".data)] ∧
    preprocessFileContentAndGenerateTokenListByMapping ("\"\"\"".data)
      pythonTokenMappings = [("\"".data), ("\"".data), ("\"".data)] := by decide

/-! ## Tokenization stability (C7) -/

theorem splitTokensAux_cons_newline (buf l : List Char) :
    splitTokensAux buf ('\n' :: l) = flushBuf buf ++ ['\n'] :: splitTokensAux [] l := by
  rw [splitTokensAux, if_pos rfl]

theorem splitTokensAux_cons_space (buf l : List Char) :
    splitTokensAux buf (' ' :: l) = flushBuf buf ++ splitTokensAux [] l := by
  rw [splitTokensAux, if_neg (by decide), if_pos (by decide)]

theorem splitTokensAux_cons_plain {c : Char} (h1 : c ≠ '\n') (h2 : isSepChar c = false)
    (buf l : List Char) :
    splitTokensAux buf (c :: l) = splitTokensAux (c :: buf) l := by
  rw [splitTokensAux, if_neg h1, if_neg (by rw [h2]; exact Bool.false_ne_true)]

theorem splitTokensAux_cons_sep {c : Char} (h1 : c ≠ '\n') (h2 : isSepChar c = true)
    (buf l : List Char) :
    splitTokensAux buf (c :: l) = flushBuf buf ++ splitTokensAux [] l := by
  rw [splitTokensAux, if_neg h1, if_pos h2]

theorem splitTokensAux_append_sep {c₀ : Char} (hc : isSepChar c₀ = true)
    (buf xs ys : List Char) :
    splitTokensAux buf (xs ++ c₀ :: ys) =
      splitTokensAux buf xs ++ splitTokensAux [] ys := by
  have hne : c₀ ≠ '\n' := by
    rintro rfl
    exact absurd hc (by decide)
  induction xs generalizing buf with
  | nil =>
    rw [List.nil_append, splitTokensAux_cons_sep hne hc]
    rfl
  | cons c xs ih =>
    rw [List.cons_append]
    by_cases h1 : c = '\n'
    · subst h1
      rw [splitTokensAux_cons_newline, splitTokensAux_cons_newline, ih,
        List.append_assoc, List.cons_append]
    · by_cases h2 : isSepChar c
      · rw [splitTokensAux_cons_sep h1 h2, splitTokensAux_cons_sep h1 h2, ih,
          List.append_assoc]
      · rw [splitTokensAux_cons_plain h1 (Bool.eq_false_iff.mpr h2),
          splitTokensAux_cons_plain h1 (Bool.eq_false_iff.mpr h2), ih]

theorem splitTokensAux_all_plain {xs : List Char}
    (h : ∀ c ∈ xs, isSepChar c = false ∧ c ≠ '\n') (buf : List Char) :
    splitTokensAux buf xs = flushBuf (xs.reverse ++ buf) := by
  induction xs generalizing buf with
  | nil => rw [splitTokensAux, List.reverse_nil, List.nil_append]
  | cons c xs ih =>
    have hc := h c (List.mem_cons_self c xs)
    rw [splitTokensAux_cons_plain hc.2 hc.1,
      ih (fun d hd => h d (List.mem_cons_of_mem c hd)), List.reverse_cons,
      List.append_assoc, List.singleton_append]

/-- The shape invariant of produced tokens: a token is the newline token,
or it is non-empty, free of whitespace, and collapses to a singleton
whenever it contains a mapped punctuation character. -/
def goodTok (t : Tok) : Prop :=
  t = ['\n'] ∨ (t ≠ [] ∧ (∀ c ∈ t, isSepChar c = false ∧ c ≠ '\n') ∧
    (∀ c ∈ t, c ∈ mappedChars → t = [c]))

theorem flushBuf_good {buf : List Char}
    (hbuf : ∀ c ∈ buf, isSepChar c = false ∧ c ≠ '\n' ∧ c ∉ mappedChars) :
    ∀ t ∈ flushBuf buf, goodTok t := by
  intro t ht
  rw [flushBuf] at ht
  by_cases hb : buf = []
  · rw [if_pos hb] at ht
    exact absurd ht (List.not_mem_nil t)
  · rw [if_neg hb] at ht
    rw [List.mem_singleton] at ht
    subst ht
    right
    refine ⟨by simpa using hb, ?_, ?_⟩
    · intro c hc
      have := hbuf c (List.mem_reverse.mp hc)
      exact ⟨this.1, this.2.1⟩
    · intro c hc hm
      exact absurd hm (hbuf c (List.mem_reverse.mp hc)).2.2

theorem mapped_not_ws : ∀ c ∈ mappedChars, isSepChar c = false ∧ c ≠ '\n' := by decide

theorem splitTokensAux_expand_good (s : List Char) :
    ∀ buf, (∀ c ∈ buf, isSepChar c = false ∧ c ≠ '\n' ∧ c ∉ mappedChars) →
    ∀ t ∈ splitTokensAux buf (expandChars mappedChars s), goodTok t := by
  induction s with
  | nil =>
    intro buf hbuf t ht
    rw [expandChars, splitTokensAux] at ht
    exact flushBuf_good hbuf t ht
  | cons c s ih =>
    intro buf hbuf t ht
    rw [expandChars] at ht
    by_cases hc : c ∈ mappedChars
    · rw [if_pos hc, List.cons_append, List.cons_append, List.singleton_append,
        splitTokensAux_cons_space,
        splitTokensAux_cons_plain (mapped_not_ws c hc).2 (mapped_not_ws c hc).1,
        splitTokensAux_cons_space] at ht
      rcases List.mem_append.mp ht with h | h
      · exact flushBuf_good hbuf t h
      · rcases List.mem_append.mp h with h | h
        · rw [show flushBuf [c] = [[c]] from rfl, List.mem_singleton] at h
          subst h
          right
          refine ⟨by simp, ?_, ?_⟩
          · intro d hd
            rw [List.mem_singleton] at hd
            subst hd
            exact mapped_not_ws d hc
          · intro d hd _
            rw [List.mem_singleton] at hd
            subst hd
            rfl
        · exact ih [] (by intro d hd; exact absurd hd (List.not_mem_nil d)) t h
    · rw [if_neg hc, List.singleton_append] at ht
      by_cases h1 : c = '\n'
      · subst h1
        rw [splitTokensAux_cons_newline] at ht
        rcases List.mem_append.mp ht with h | h
        · exact flushBuf_good hbuf t h
        · rcases List.mem_cons.mp h with h | h
          · subst h
            exact Or.inl rfl
          · exact ih [] (by intro d hd; exact absurd hd (List.not_mem_nil d)) t h
      · by_cases h2 : isSepChar c
        · rw [splitTokensAux_cons_sep h1 h2 buf] at ht
          rcases List.mem_append.mp ht with h | h
          · exact flushBuf_good hbuf t h
          · exact ih [] (by intro d hd; exact absurd hd (List.not_mem_nil d)) t h
        · rw [splitTokensAux_cons_plain h1 (Bool.eq_false_iff.mpr h2)] at ht
          refine ih (c :: buf) ?_ t ht
          intro d hd
          rcases List.mem_cons.mp hd with h | h
          · subst h
            exact ⟨Bool.eq_false_iff.mpr h2, h1, hc⟩
          · exact hbuf d h

theorem replaceAll_single_cons (a : Char) (r : List Char) (c : Char) (s : List Char) :
    replaceAll [a] r (c :: s) =
      if a = c then r ++ replaceAll [a] r s else c :: replaceAll [a] r s := by
  by_cases h : a = c
  · subst h
    rw [if_pos rfl]
    show replaceAllGo [a] r 0 (a :: s) = r ++ replaceAllGo [a] r 0 s
    rw [replaceAllGo, if_pos ⟨by simp, by simp [List.isPrefixOf]⟩]
    norm_num
  · rw [if_neg h]
    show replaceAllGo [a] r 0 (c :: s) = c :: replaceAllGo [a] r 0 s
    rw [replaceAllGo, if_neg ?_]
    rintro ⟨-, hpre⟩
    rw [List.isPrefixOf, Bool.and_eq_true, beq_iff_eq] at hpre
    exact h hpre.1

theorem replaceAll_nil (pat rep : List Char) : replaceAll pat rep [] = [] := rfl

theorem replaceAll_single_append (a : Char) (r xs ys : List Char) :
    replaceAll [a] r (xs ++ ys) = replaceAll [a] r xs ++ replaceAll [a] r ys := by
  induction xs with
  | nil => rw [List.nil_append, replaceAll_nil, List.nil_append]
  | cons c xs ih =>
    rw [List.cons_append, replaceAll_single_cons, replaceAll_single_cons]
    by_cases h : a = c
    · rw [if_pos h, if_pos h, ih, List.append_assoc]
    · rw [if_neg h, if_neg h, ih, List.cons_append]

theorem replaceAll_single_of_not_mem (a : Char) (r : List Char) {xs : List Char}
    (h : a ∉ xs) : replaceAll [a] r xs = xs := by
  induction xs with
  | nil => rfl
  | cons c xs ih =>
    rw [replaceAll_single_cons,
      if_neg (by rintro rfl; exact h (List.mem_cons_self a xs)),
      ih (fun hm => h (List.mem_cons_of_mem c hm))]

theorem expandChars_of_not_mem {cs xs : List Char} (h : ∀ c ∈ xs, c ∉ cs) :
    expandChars cs xs = xs := by
  induction xs with
  | nil => rfl
  | cons c xs ih =>
    rw [expandChars, if_neg (h c (List.mem_cons_self c xs)), List.singleton_append,
      ih (fun d hd => h d (List.mem_cons_of_mem c hd))]

theorem replaceAll_pad_expandChars {cs : List Char} {a : Char} (ha : a ∉ cs)
    (hsp : a ≠ ' ') (s : List Char) :
    replaceAll [a] [' ', a, ' '] (expandChars cs s) = expandChars (cs ++ [a]) s := by
  induction s with
  | nil => rfl
  | cons c s ih =>
    rw [expandChars, expandChars, replaceAll_single_append, ih]
    congr 1
    by_cases hc : c ∈ cs
    · rw [if_pos hc, if_pos (List.mem_append_left _ hc)]
      refine replaceAll_single_of_not_mem _ _ ?_
      intro hm
      rcases List.mem_cons.mp hm with h | hm
      · exact hsp h
      rcases List.mem_cons.mp hm with h | hm
      · exact ha (h ▸ hc)
      rcases List.mem_cons.mp hm with h | hm
      · exact hsp h
      · exact absurd hm (List.not_mem_nil a)
    · by_cases hac : c = a
      · subst hac
        rw [if_neg hc, if_pos (List.mem_append_right _ (List.mem_singleton_self c))]
        rw [replaceAll_single_cons, if_pos rfl, replaceAll_nil, List.append_nil]
      · rw [if_neg hc, if_neg ?_]
        · exact replaceAll_single_of_not_mem _ _ (by
            intro hm
            rw [List.mem_singleton] at hm
            exact hac hm.symm)
        · intro hm
          rcases List.mem_append.mp hm with h | h
          · exact hc h
          · rw [List.mem_singleton] at h
            exact hac h

theorem applyTokenMappings_padMappings (cs : List Char) (hnd : cs.Nodup)
    (hsp : ' ' ∉ cs) (s : List Char) :
    applyTokenMappings (padMappings cs) s = expandChars cs s := by
  induction cs using List.reverseRecOn with
  | nil =>
    rw [show padMappings [] = [] from rfl, applyTokenMappings, List.foldl_nil,
      expandChars_of_not_mem (fun c _ => List.not_mem_nil c)]
  | append_singleton cs a ih =>
    obtain ⟨h1, -, hdisj⟩ := List.nodup_append.mp hnd
    have ha : a ∉ cs := fun hm => hdisj hm (List.mem_singleton_self a)
    have hsp1 : ' ' ∉ cs := fun hm => hsp (List.mem_append_left _ hm)
    have hspa : a ≠ ' ' := fun h =>
      hsp (List.mem_append_right _ (by rw [h]; exact List.mem_singleton_self ' '))
    have hsplit : padMappings (cs ++ [a]) = padMappings cs ++ [([a], [' ', a, ' '])] := by
      rw [padMappings, List.map_append]
      rfl
    rw [applyTokenMappings, hsplit, List.foldl_append]
    rw [show List.foldl (fun acc m => replaceAll m.1 m.2 acc) s (padMappings cs) =
      applyTokenMappings (padMappings cs) s from rfl]
    rw [ih h1 hsp1, List.foldl_cons, List.foldl_nil]
    exact replaceAll_pad_expandChars ha hspa s

theorem applyTokenMappings_python (s : List Char) :
    applyTokenMappings pythonTokenMappings s = expandChars mappedChars s := by
  rw [show pythonTokenMappings = padMappings mappedChars from by decide]
  exact applyTokenMappings_padMappings mappedChars (by decide) (by decide) s

theorem expandChars_append (cs xs ys : List Char) :
    expandChars cs (xs ++ ys) = expandChars cs xs ++ expandChars cs ys := by
  induction xs with
  | nil => rfl
  | cons c xs ih =>
    rw [List.cons_append, expandChars, expandChars, ih, List.append_assoc]

theorem splitTokens_expand_single {t : Tok} (h : goodTok t) :
    splitTokens (expandChars mappedChars t) = [t] := by
  rcases h with h | ⟨hne, hws, hmap⟩
  · subst h
    decide
  · by_cases hex : ∃ c ∈ t, c ∈ mappedChars
    · obtain ⟨c, hct, hcm⟩ := hex
      have hc := hws c hct
      rw [hmap c hct hcm]
      rw [show expandChars mappedChars [c] = [' ', c, ' '] from by
        rw [expandChars, if_pos hcm, expandChars, List.append_nil]]
      rw [splitTokens, splitTokensAux_cons_space,
        splitTokensAux_cons_plain hc.2 hc.1, splitTokensAux_cons_space]
      rfl
    · push_neg at hex
      rw [expandChars_of_not_mem hex, splitTokens, splitTokensAux_all_plain hws,
        List.append_nil, flushBuf, if_neg (by simpa using hne), List.reverse_reverse]

theorem splitTokens_expand_joinTokens (ts : List Tok) :
    (∀ t ∈ ts, goodTok t) →
    splitTokens (expandChars mappedChars (joinTokens ts)) = ts := by
  induction ts with
  | nil =>
    intro _
    rfl
  | cons t ts ih =>
    intro h
    rw [joinTokens,
      show (t ++ ' ' :: joinTokens ts) = t ++ [' '] ++ joinTokens ts from by
        rw [List.append_assoc, List.singleton_append],
      expandChars_append, expandChars_append,
      show expandChars mappedChars [' '] = [' '] from by decide]
    rw [List.append_assoc, List.singleton_append, splitTokens,
      splitTokensAux_append_sep (by decide)]
    rw [show splitTokensAux [] (expandChars mappedChars t) =
      splitTokens (expandChars mappedChars t) from rfl]
    rw [show splitTokensAux [] (expandChars mappedChars (joinTokens ts)) =
      splitTokens (expandChars mappedChars (joinTokens ts)) from rfl]
    rw [splitTokens_expand_single (h t (List.mem_cons_self t ts)),
      ih (fun x hx => h x (List.mem_cons_of_mem t hx)), List.singleton_append]

theorem preprocess_good (s : List Char) :
    ∀ t ∈ preprocessFileContentAndGenerateTokenListByMapping s pythonTokenMappings,
      goodTok t := by
  intro t ht
  rw [preprocessFileContentAndGenerateTokenListByMapping,
    applyTokenMappings_python] at ht
  exact splitTokensAux_expand_good s [] (fun c hc => absurd hc (List.not_mem_nil c)) t ht

theorem preprocess_joinTokens {ts : List Tok} (h : ∀ t ∈ ts, goodTok t) :
    preprocessFileContentAndGenerateTokenListByMapping (joinTokens ts)
      pythonTokenMappings = ts := by
  rw [preprocessFileContentAndGenerateTokenListByMapping, applyTokenMappings_python]
  exact splitTokens_expand_joinTokens ts h

theorem filterCommentTokens_mem {im bs be : Tok} (ts : List Tok)
    (st : CommentScanState) :
    ∀ t ∈ filterCommentTokens im bs be st ts, t = newlineTok ∨ t ∈ ts := by
  induction ts generalizing st with
  | nil =>
    intro t ht
    cases st <;> exact absurd ht (List.not_mem_nil t)
  | cons w ts ih =>
    intro t ht
    cases st with
    | normal =>
      rw [filterCommentTokens] at ht
      by_cases h1 : w = im
      · rw [if_pos h1] at ht
        rcases ih .inlineComment t ht with h | h
        · exact Or.inl h
        · exact Or.inr (List.mem_cons_of_mem w h)
      · rw [if_neg h1] at ht
        by_cases h2 : w = bs
        · rw [if_pos h2] at ht
          rcases ih .blockComment t ht with h | h
          · exact Or.inl h
          · exact Or.inr (List.mem_cons_of_mem w h)
        · rw [if_neg h2] at ht
          rcases List.mem_cons.mp ht with h | h
          · exact Or.inr (h ▸ List.mem_cons_self w ts)
          · rcases ih .normal t h with h | h
            · exact Or.inl h
            · exact Or.inr (List.mem_cons_of_mem w h)
    | inlineComment =>
      rw [filterCommentTokens] at ht
      by_cases h1 : w = newlineTok
      · rw [if_pos h1] at ht
        rcases List.mem_cons.mp ht with h | h
        · exact Or.inl h
        · rcases ih .normal t h with h | h
          · exact Or.inl h
          · exact Or.inr (List.mem_cons_of_mem w h)
      · rw [if_neg h1] at ht
        rcases ih .inlineComment t ht with h | h
        · exact Or.inl h
        · exact Or.inr (List.mem_cons_of_mem w h)
    | blockComment =>
      rw [filterCommentTokens] at ht
      by_cases h1 : w = be
      · rw [if_pos h1] at ht
        rcases ih .normal t ht with h | h
        · exact Or.inl h
        · exact Or.inr (List.mem_cons_of_mem w h)
      · rw [if_neg h1] at ht
        rcases ih .blockComment t ht with h | h
        · exact Or.inl h
        · exact Or.inr (List.mem_cons_of_mem w h)

/-- C7: tokenization is idempotent over comment-filtered output — for any
file content, tokenizing the comment filter's string output yields exactly
the filtered token sequence, and tokenizing that token sequence rendered
back to text a second time yields the same token sequence again. -/
theorem c7_tokenization_idempotent (fileContent : List Char) :
    preprocessFileContentAndGenerateTokenListByMapping
      (filterSourceTokensWithoutComments
        (preprocessFileContentAndGenerateTokenListByMapping fileContent
          pythonTokenMappings)
        inlineCommentKw blockCommentKw blockCommentKw)
      pythonTokenMappings =
      filterCommentTokens inlineCommentKw blockCommentKw blockCommentKw .normal
        (preprocessFileContentAndGenerateTokenListByMapping fileContent
          pythonTokenMappings) ∧
    preprocessFileContentAndGenerateTokenListByMapping
      (joinTokens (preprocessFileContentAndGenerateTokenListByMapping
        (filterSourceTokensWithoutComments
          (preprocessFileContentAndGenerateTokenListByMapping fileContent
            pythonTokenMappings)
          inlineCommentKw blockCommentKw blockCommentKw)
        pythonTokenMappings))
      pythonTokenMappings =
      preprocessFileContentAndGenerateTokenListByMapping
        (filterSourceTokensWithoutComments
          (preprocessFileContentAndGenerateTokenListByMapping fileContent
            pythonTokenMappings)
          inlineCommentKw blockCommentKw blockCommentKw)
        pythonTokenMappings := by
  constructor
  · rw [filterSourceTokensWithoutComments]
    refine preprocess_joinTokens ?_
    intro t ht
    rcases filterCommentTokens_mem _ _ t ht with h | h
    · exact Or.inl h
    · exact preprocess_good fileContent t h
  · exact preprocess_joinTokens (preprocess_good _)

end EmergePy
